import Mathlib

/-!
Shallow embedding of the GLSP client core: the type-hint resolver and capability
application command (features/hints/type-hints.ts), the command stack extension
(base/command-stack.ts), the correlated-request helpers (label-edit validator and
server context-menu item provider), and the request/response correlation primitive.
Definitions are translated from the TypeScript source; parts of the repository that
are referenced but whose code is not available are modelled from the specification
and marked as such in their doc comments.
-/

namespace Glsp

/-! ### Hierarchical type ids: colon splitting and joining

JavaScript strings are modelled through their character lists. `strSegs` performs
the split done by String.prototype.split with separator colon (every occurrence
splits; the empty string yields one empty segment), `joinSegs` the join done by
Array.prototype.join with separator colon. -/

/-- Splitting of a character list at every colon, as JavaScript string split does:
the result is always a nonempty list of segments. -/
def strSegs : List Char → List (List Char)
  | [] => [[]]
  | c :: cs =>
    if c = ':' then [] :: strSegs cs
    else
      match strSegs cs with
      | s :: rest => (c :: s) :: rest
      | [] => [[c]]

/-- Joining of character-list segments with a colon between consecutive segments,
as JavaScript array join does. -/
def joinSegs : List (List Char) → List Char
  | [] => []
  | [s] => s
  | s :: t :: rest => s ++ ':' :: joinSegs (t :: rest)

/-- The split of a string into its colon-separated segments (type.split in
getTypeHint). -/
def splitColon (s : String) : List String :=
  (strSegs s.data).map String.mk

/-- The join of segments with colons (subtypes.join in getTypeHint). -/
def joinColon (l : List String) : String :=
  String.mk (joinSegs (l.map String.data))

theorem strSegs_ne_nil : ∀ cs : List Char, strSegs cs ≠ []
  | [] => by simp [strSegs]
  | c :: cs => by
    simp only [strSegs]
    split
    · simp
    · split <;> simp

theorem joinSegs_strSegs : ∀ cs : List Char, joinSegs (strSegs cs) = cs
  | [] => rfl
  | c :: cs => by
    have ih := joinSegs_strSegs cs
    simp only [strSegs]
    split
    · rename_i hc
      obtain ⟨s, rest, hsr⟩ := List.exists_cons_of_ne_nil (strSegs_ne_nil cs)
      rw [hsr] at ih ⊢
      simpa [joinSegs, hc] using ih
    · obtain ⟨s, rest, hsr⟩ := List.exists_cons_of_ne_nil (strSegs_ne_nil cs)
      rw [hsr] at ih ⊢
      simp only []
      cases rest with
      | nil => simpa [joinSegs] using congrArg (c :: ·) ih
      | cons u rest2 => simpa [joinSegs] using congrArg (c :: ·) ih

theorem splitColon_ne_nil (s : String) : splitColon s ≠ [] := by
  simpa [splitColon] using strSegs_ne_nil s.data

theorem joinColon_splitColon (s : String) : joinColon (splitColon s) = s := by
  cases s with
  | mk data =>
    simp only [joinColon, splitColon, List.map_map]
    rw [show (String.data ∘ String.mk) = id from rfl, List.map_id, joinSegs_strSegs]

/-! ### Registry lookup and the hint resolver -/

/-- Lookup in a registry modelled as an association list (Map.get in the source). -/
def lookupHint {T : Type} (hints : List (String × T)) (key : String) : Option T :=
  (hints.find? (fun p => p.1 == key)).map Prod.snd

/-- The while loop of getTypeHint, indexed by the number of segments still
available for popping: at counter value k+1 the last segment has just been popped
leaving the first k segments, the join of which is looked up; on a miss the loop
continues with k. Counter zero means the identifier is exhausted. -/
def stripLoopN {T : Type} (hints : List (String × T)) (segs : List String) : Nat → Option T
  | 0 => none
  | k + 1 =>
    match lookupHint hints (joinColon (segs.take k)) with
    | some h => some h
    | none => stripLoopN hints segs k

/-- The hint resolver getTypeHint from type-hints.ts: exact lookup of the type id
first; on a miss, the last colon-separated segment is stripped and the join of the
remaining segments retried, down to and including the empty join. -/
def getTypeHint {T : Type} (hints : List (String × T)) (type : String) : Option T :=
  match lookupHint hints type with
  | some h => some h
  | none => stripLoopN hints (splitColon type) (splitColon type).length

/-- The sequence of identifiers the stripping loop looks up, most segments first. -/
def stripCandidatesN (segs : List String) : Nat → List String
  | 0 => []
  | k + 1 => joinColon (segs.take k) :: stripCandidatesN segs k

/-- All identifiers getTypeHint looks up, in lookup order: the exact type id first,
then the joins obtained by stripping trailing segments one at a time, ending with
the empty string. -/
def candidates (type : String) : List String :=
  type :: stripCandidatesN (splitColon type) (splitColon type).length

theorem stripLoopN_eq_findSome {T : Type} (hints : List (String × T)) (segs : List String) :
    ∀ k, stripLoopN hints segs k = (stripCandidatesN segs k).findSome? (lookupHint hints)
  | 0 => rfl
  | k + 1 => by
    simp only [stripLoopN, stripCandidatesN, List.findSome?_cons]
    cases lookupHint hints (joinColon (segs.take k)) with
    | none => simpa using stripLoopN_eq_findSome hints segs k
    | some h => rfl

theorem getTypeHint_eq_findSome {T : Type} (hints : List (String × T)) (type : String) :
    getTypeHint hints type = (candidates type).findSome? (lookupHint hints) := by
  simp only [getTypeHint, candidates, List.findSome?_cons]
  cases lookupHint hints type with
  | none => simpa using stripLoopN_eq_findSome hints (splitColon type) (splitColon type).length
  | some h => rfl

theorem empty_mem_stripCandidatesN (segs : List String) :
    ∀ k, 1 ≤ k → "" ∈ stripCandidatesN segs k
  | 0, h => absurd h (by simp)
  | 1, _ => by
    simp [stripCandidatesN, joinColon, joinSegs]
  | k + 2, _ =>
    List.mem_cons_of_mem _ (empty_mem_stripCandidatesN segs (k + 1) (by omega))

theorem empty_mem_candidates (type : String) : "" ∈ candidates type := by
  have h1 : 1 ≤ (splitColon type).length :=
    List.length_pos.mpr (splitColon_ne_nil type)
  exact List.mem_cons_of_mem _ (empty_mem_stripCandidatesN _ _ h1)

/-! ### The candidate sequence is ordered by decreasing length -/

theorem joinSegs_length_le_append_singleton :
    ∀ (l : List (List Char)) (s : List Char),
      (joinSegs l).length ≤ (joinSegs (l ++ [s])).length
  | [], s => by simp [joinSegs]
  | [t], s => by simp [joinSegs]
  | t :: u :: rest, s => by
    have ih := joinSegs_length_le_append_singleton (u :: rest) s
    simp only [List.cons_append, joinSegs, List.length_append, List.length_cons,
      List.append_eq] at ih ⊢
    omega

theorem joinSegs_take_length_mono (l : List (List Char)) :
    ∀ {i j : Nat}, i ≤ j →
      (joinSegs (l.take i)).length ≤ (joinSegs (l.take j)).length := by
  have step : ∀ k : Nat, (joinSegs (l.take k)).length ≤ (joinSegs (l.take (k + 1))).length := by
    intro k
    rw [List.take_succ]
    cases hk : l[k]? with
    | none => simp
    | some a => simpa using joinSegs_length_le_append_singleton (l.take k) a
  intro i j hij
  induction j with
  | zero => simp [Nat.le_zero.mp hij]
  | succ j ih =>
    rcases Nat.lt_or_ge i (j + 1) with h | h
    · exact le_trans (ih (by omega)) (step j)
    · have : i = j + 1 := by omega
      simp [this]

theorem length_joinColon_take_mono (segs : List String) {i j : Nat} (hij : i ≤ j) :
    (joinColon (segs.take i)).length ≤ (joinColon (segs.take j)).length := by
  simpa [joinColon, List.map_take, String.length] using
    joinSegs_take_length_mono (segs.map String.data) hij

theorem stripCandidatesN_sorted (segs : List String) :
    ∀ k, (stripCandidatesN segs k).Pairwise (fun a b => b.length ≤ a.length) ∧
      ∀ c ∈ stripCandidatesN segs k, c.length ≤ (joinColon (segs.take k)).length
  | 0 => by simp [stripCandidatesN]
  | k + 1 => by
    obtain ⟨ihp, ihb⟩ := stripCandidatesN_sorted segs k
    constructor
    · exact List.Pairwise.cons (fun c hc => ihb c hc) ihp
    · intro c hc
      rcases List.mem_cons.mp hc with h | h
      · exact h ▸ length_joinColon_take_mono segs (Nat.le_succ k)
      · exact le_trans (ihb c h) (length_joinColon_take_mono segs (Nat.le_succ k))

theorem candidates_sorted (type : String) :
    (candidates type).Pairwise (fun a b => b.length ≤ a.length) := by
  obtain ⟨hp, hb⟩ := stripCandidatesN_sorted (splitColon type) (splitColon type).length
  refine List.Pairwise.cons (fun c hc => ?_) hp
  have := hb c hc
  rwa [List.take_length, joinColon_splitColon] at this

/-- findSome? on a list sorted by non-increasing measure returns a value attained at
an entry such that every strictly longer entry yields none. -/
theorem findSome?_sorted_first {α β : Type} (f : α → Option β) (len : α → Nat) :
    ∀ (L : List α), L.Pairwise (fun a b => len b ≤ len a) →
      ∀ h : β, L.findSome? f = some h →
        ∃ c ∈ L, f c = some h ∧ ∀ c2 ∈ L, len c < len c2 → f c2 = none
  | [], _, h, hf => by simp at hf
  | c :: L, hp, h, hf => by
    cases hfc : f c with
    | some b =>
      simp only [List.findSome?_cons, hfc] at hf
      refine ⟨c, List.mem_cons_self c L, hfc.trans hf, ?_⟩
      intro c2 hc2 hlt
      rcases List.mem_cons.mp hc2 with rfl | hc2
      · exact absurd hlt (lt_irrefl _)
      · exact absurd hlt (not_lt.mpr ((List.pairwise_cons.mp hp).1 c2 hc2))
    | none =>
      simp only [List.findSome?_cons, hfc] at hf
      obtain ⟨c0, hc0, hfc0, hrest⟩ :=
        findSome?_sorted_first f len L (List.pairwise_cons.mp hp).2 h hf
      refine ⟨c0, List.mem_cons_of_mem c hc0, hfc0, ?_⟩
      intro c2 hc2 hlt
      rcases List.mem_cons.mp hc2 with rfl | hc2
      · exact hfc
      · exact hrest c2 hc2 hlt

/-- C1: getTypeHint returns the hint registered under the longest colon-segment
candidate of the type id present in the registry — the exact id first, then the id
with trailing segments stripped one at a time down to and including the empty
string — and returns none exactly when no candidate, the empty string included, is
registered. -/
theorem getTypeHint_longest_match {T : Type} (hints : List (String × T)) (type : String) :
    getTypeHint hints type = (candidates type).findSome? (lookupHint hints) ∧
    "" ∈ candidates type ∧
    (getTypeHint hints type = none ↔ ∀ c ∈ candidates type, lookupHint hints c = none) ∧
    ∀ h, getTypeHint hints type = some h →
      ∃ c ∈ candidates type, lookupHint hints c = some h ∧
        ∀ c2 ∈ candidates type, c.length < c2.length → lookupHint hints c2 = none := by
  refine ⟨getTypeHint_eq_findSome hints type, empty_mem_candidates type, ?_, ?_⟩
  · rw [getTypeHint_eq_findSome]
    exact List.findSome?_eq_none_iff
  · intro h hf
    rw [getTypeHint_eq_findSome] at hf
    exact findSome?_sorted_first (lookupHint hints) String.length _ (candidates_sorted type) h hf

/-- Witness for C1 at a concrete registry and type id: the hint registered under
the stripped ancestor id is returned. -/
theorem getTypeHint_longest_match_witness :
    getTypeHint [("node", 1), ("", 0)] "node:task:user" = some 1 ∧
    ∃ c ∈ candidates "node:task:user", lookupHint [("node", 1), ("", 0)] c = some 1 ∧
      ∀ c2 ∈ candidates "node:task:user", c.length < c2.length →
        lookupHint [("node", 1), ("", 0)] c2 = none :=
  ⟨by decide, (getTypeHint_longest_match [("node", 1), ("", 0)] "node:task:user").2.2.2 1 (by decide)⟩

/-! ### Type hints, feature sets and model elements -/

/-- Feature tokens added to or removed from an element's feature set by the
capability application command (deletableFeature, editFeature, moveFeature,
reconnectFeature, resizeFeature, reparentFeature, containerFeature,
connectableFeature in the source imports). -/
inductive Feature where
  | deletableFeature
  | editFeature
  | moveFeature
  | reconnectFeature
  | resizeFeature
  | reparentFeature
  | containerFeature
  | connectableFeature
deriving DecidableEq

/-- ShapeTypeHint from the protocol: capability descriptor for shape elements. -/
structure ShapeTypeHint where
  elementTypeId : String
  deletable : Bool
  repositionable : Bool
  resizable : Bool
  reparentable : Bool
  containableElementTypeIds : Option (List String)
deriving DecidableEq

/-- EdgeTypeHint from the protocol: capability descriptor for edge elements. -/
structure EdgeTypeHint where
  elementTypeId : String
  deletable : Bool
  repositionable : Bool
  routable : Bool
  sourceElementTypeIds : List String
  targetElementTypeIds : List String
deriving DecidableEq

/-- The features field of a model element: possibly absent, and when present either
a JavaScript Set of feature tokens (order-insensitive, duplicate-free, modelled as a
finite set) or some other object that is not a Set. -/
inductive FeatureSetObj where
  | featSet (s : Finset Feature)
  | nonSetObj
deriving DecidableEq

/-- isModifiableFeatureSet from type-hints.ts: the features field is defined and is
an instance of Set. -/
def isModifiableFeatureSet : Option FeatureSetObj → Bool
  | some (.featSet _) => true
  | _ => false

/-- The environment captured by the canConnect closure built in createConnectable:
the valid source and target edge type ids computed for the element. -/
structure ConnectableData where
  validSourceEdges : List String
  validTargetEdges : List String
deriving DecidableEq

/-- The environment captured by the isContainableElement closure built in
createContainable: the hint's containableElementTypeIds. -/
structure ContainableData where
  containableElementTypeIds : Option (List String)
deriving DecidableEq

/-- The endpoint role distinguished by canConnect and getValidEdgeElementTypes. -/
inductive Role where
  | source
  | target
deriving DecidableEq

/-- The body of the canConnect closure from createConnectable, evaluated on the
captured data and the type id of the routable candidate. -/
def canConnect (c : ConnectableData) (routableType : String) (role : Role) : Bool :=
  match role with
  | .source => c.validSourceEdges.contains routableType
  | .target => c.validTargetEdges.contains routableType

/-- The body of the isContainableElement closure from createContainable, evaluated
on the captured data and the type id of the candidate element; an absent
containableElementTypeIds list makes the predicate constantly false. -/
def isContainableElement (c : ContainableData) (elementType : String) : Bool :=
  match c.containableElementTypeIds with
  | some ids => ids.contains elementType
  | none => false

/-- The runtime class of a model element, as discriminated by the instanceof checks
in ApplyTypeHintsCommand.execute: SShapeElement and SModelRoot take the shape
branch, SEdge the edge branch, and any other element is skipped. -/
inductive ElemKind where
  | shapeElem
  | rootElem
  | edgeElem
  | otherElem
deriving DecidableEq

/-- A model element as seen by the capability application command: its runtime
class, its hierarchical type id, its features field, and the closure data assigned
by Object.assign for connectable and containable behaviour (absent before the
first application). -/
structure ModelElement where
  kind : ElemKind
  type : String
  features : Option FeatureSetObj
  connectable : Option ConnectableData
  containable : Option ContainableData
deriving DecidableEq

/-- The state of TypeHintProvider: the shapeHints and edgeHints maps, modelled as
association lists from elementTypeId to hint (Map values in registration order). -/
structure TypeHintProvider where
  shapeHints : List (String × ShapeTypeHint)
  edgeHints : List (String × EdgeTypeHint)
deriving DecidableEq

/-- TypeHintProvider.getShapeTypeHint. -/
def getShapeTypeHint (p : TypeHintProvider) (type : String) : Option ShapeTypeHint :=
  getTypeHint p.shapeHints type

/-- TypeHintProvider.getEdgeTypeHint. -/
def getEdgeTypeHint (p : TypeHintProvider) (type : String) : Option EdgeTypeHint :=
  getTypeHint p.edgeHints type

/-- Modelled from the spec: hasCompatibleType from utils/smodel-util.ts is not part
of the provided sources; per the spec (section 4.2), an id registered on an edge
hint is compatible with the element's type id when it matches exactly or is an
ancestor under the same hierarchical stripping rule used by the resolver. -/
def hasCompatibleType (typeId registeredId : String) : Bool :=
  (candidates typeId).contains registeredId

/-- TypeHintProvider.getValidEdgeElementTypes: scans the registered edge hints and
keeps the elementTypeId of each hint whose source (respectively target) element
type ids hold an id compatible with the element's type id. -/
def getValidEdgeElementTypes (p : TypeHintProvider) (elementTypeId : String) (role : Role) :
    List String :=
  match role with
  | .source =>
    ((p.edgeHints.map Prod.snd).filter
      (fun hint => hint.sourceElementTypeIds.any
        (fun sourceElementTypeId => hasCompatibleType elementTypeId sourceElementTypeId))).map
      (fun hint => hint.elementTypeId)
  | .target =>
    ((p.edgeHints.map Prod.snd).filter
      (fun hint => hint.targetElementTypeIds.any
        (fun targetElementTypeId => hasCompatibleType elementTypeId targetElementTypeId))).map
      (fun hint => hint.elementTypeId)

/-- addOrRemove from type-hints.ts: ensure or revoke one feature token. -/
def addOrRemove (features : Finset Feature) (feature : Feature) (add : Bool) : Finset Feature :=
  if add = true ∧ feature ∉ features then insert feature features
  else if add = false ∧ feature ∈ features then features.erase feature
  else features

/-- The sequence of addOrRemove calls performed by applyEdgeTypeHint on the
feature set: deletable from hint.deletable, edit from hint.routable, reconnect
from hint.repositionable. -/
def edgeFeatures (hint : EdgeTypeHint) (s : Finset Feature) : Finset Feature :=
  addOrRemove
    (addOrRemove
      (addOrRemove s .deletableFeature hint.deletable)
      .editFeature hint.routable)
    .reconnectFeature hint.repositionable

/-- ApplyTypeHintsCommand.applyEdgeTypeHint: when an edge hint resolves and the
features field is a modifiable set, set or clear the deletable, edit and reconnect
tokens from the hint; otherwise leave the element untouched. -/
def applyEdgeTypeHint (p : TypeHintProvider) (element : ModelElement) : ModelElement :=
  match getEdgeTypeHint p element.type, element.features with
  | some hint, some (.featSet s) =>
    { element with features := some (.featSet (edgeFeatures hint s)) }
  | _, _ => element

/-- The sequence of addOrRemove calls performed by applyShapeTypeHint on the
feature set: deletable, move, resize and reparent from the hint's booleans, then
container and connectable always added. -/
def shapeFeatures (hint : ShapeTypeHint) (s : Finset Feature) : Finset Feature :=
  addOrRemove
    (addOrRemove
      (addOrRemove
        (addOrRemove
          (addOrRemove
            (addOrRemove s .deletableFeature hint.deletable)
            .moveFeature hint.repositionable)
          .resizeFeature hint.resizable)
        .reparentFeature hint.reparentable)
      .containerFeature true)
    .connectableFeature true

/-- ApplyTypeHintsCommand.applyShapeTypeHint: when a shape hint resolves and the
features field is a modifiable set, set or clear the deletable, move, resize and
reparent tokens from the hint, always add the container and connectable tokens, and
assign the containable and connectable closure data; otherwise leave the element
untouched. -/
def applyShapeTypeHint (p : TypeHintProvider) (element : ModelElement) : ModelElement :=
  match getShapeTypeHint p element.type, element.features with
  | some hint, some (.featSet s) =>
    { element with
      features := some (.featSet (shapeFeatures hint s))
      containable := some ⟨hint.containableElementTypeIds⟩
      connectable := some ⟨getValidEdgeElementTypes p element.type .source,
                           getValidEdgeElementTypes p element.type .target⟩ }
  | _, _ => element

/-- The per-element dispatch of ApplyTypeHintsCommand.execute: shape elements and
the model root take the shape branch, edges the edge branch, all other elements are
left untouched. -/
def applyToElement (p : TypeHintProvider) (element : ModelElement) : ModelElement :=
  match element.kind with
  | .shapeElem => applyShapeTypeHint p element
  | .rootElem => applyShapeTypeHint p element
  | .edgeElem => applyEdgeTypeHint p element
  | .otherElem => element

/-- ApplyTypeHintsCommand.execute: one pass over all elements of the model index. -/
def executeApplyTypeHints (p : TypeHintProvider) (root : List ModelElement) :
    List ModelElement :=
  root.map (applyToElement p)

/-! ### Behaviour of addOrRemove and the application pass -/

theorem mem_addOrRemove {s : Finset Feature} {f g : Feature} {add : Bool} :
    g ∈ addOrRemove s f add ↔ (g = f ∧ add = true ∨ g ≠ f ∧ g ∈ s) := by
  by_cases hgf : g = f <;> by_cases hadd : add = true <;> by_cases hfs : f ∈ s <;>
    simp [addOrRemove, hgf, hadd, hfs, Finset.mem_insert, Finset.mem_erase]

theorem addOrRemove_eq_self {s : Finset Feature} {f : Feature} {add : Bool}
    (h : f ∈ s ↔ add = true) : addOrRemove s f add = s := by
  unfold addOrRemove
  split
  · rename_i hc
    exact absurd (h.mpr hc.1) hc.2
  · split
    · rename_i hc
      have := h.mp hc.2
      rw [hc.1] at this
      exact absurd this (by simp)
    · rfl

theorem shapeFeatures_idem (hint : ShapeTypeHint) (s : Finset Feature) :
    shapeFeatures hint (shapeFeatures hint s) = shapeFeatures hint s :=
  Finset.ext fun g => by
    cases g <;> simp [shapeFeatures, mem_addOrRemove]

theorem edgeFeatures_idem (hint : EdgeTypeHint) (s : Finset Feature) :
    edgeFeatures hint (edgeFeatures hint s) = edgeFeatures hint s :=
  Finset.ext fun g => by
    cases g <;> simp [edgeFeatures, mem_addOrRemove]

theorem applyShapeTypeHint_of_none (p : TypeHintProvider) (e : ModelElement)
    (hg : getShapeTypeHint p e.type = none) : applyShapeTypeHint p e = e := by
  unfold applyShapeTypeHint
  rw [hg]

theorem applyEdgeTypeHint_of_none (p : TypeHintProvider) (e : ModelElement)
    (hg : getEdgeTypeHint p e.type = none) : applyEdgeTypeHint p e = e := by
  unfold applyEdgeTypeHint
  rw [hg]

theorem applyShapeTypeHint_of_not_modifiable (p : TypeHintProvider) (e : ModelElement)
    (hm : isModifiableFeatureSet e.features = false) : applyShapeTypeHint p e = e := by
  unfold applyShapeTypeHint
  cases hg : getShapeTypeHint p e.type with
  | none =>
    cases hf : e.features with
    | none => rfl
    | some fo => cases fo <;> rfl
  | some hint =>
    cases hf : e.features with
    | none => rfl
    | some fo =>
      cases fo with
      | featSet s => rw [hf] at hm; simp [isModifiableFeatureSet] at hm
      | nonSetObj => rfl

theorem applyEdgeTypeHint_of_not_modifiable (p : TypeHintProvider) (e : ModelElement)
    (hm : isModifiableFeatureSet e.features = false) : applyEdgeTypeHint p e = e := by
  unfold applyEdgeTypeHint
  cases hg : getEdgeTypeHint p e.type with
  | none =>
    cases hf : e.features with
    | none => rfl
    | some fo => cases fo <;> rfl
  | some hint =>
    cases hf : e.features with
    | none => rfl
    | some fo =>
      cases fo with
      | featSet s => rw [hf] at hm; simp [isModifiableFeatureSet] at hm
      | nonSetObj => rfl

theorem applyShapeTypeHint_eq (p : TypeHintProvider) (e : ModelElement)
    (hint : ShapeTypeHint) (s : Finset Feature)
    (hg : getShapeTypeHint p e.type = some hint) (hf : e.features = some (.featSet s)) :
    applyShapeTypeHint p e =
      { e with
        features := some (.featSet (shapeFeatures hint s))
        containable := some ⟨hint.containableElementTypeIds⟩
        connectable := some ⟨getValidEdgeElementTypes p e.type .source,
                             getValidEdgeElementTypes p e.type .target⟩ } := by
  unfold applyShapeTypeHint
  rw [hg, hf]

theorem applyEdgeTypeHint_eq (p : TypeHintProvider) (e : ModelElement)
    (hint : EdgeTypeHint) (s : Finset Feature)
    (hg : getEdgeTypeHint p e.type = some hint) (hf : e.features = some (.featSet s)) :
    applyEdgeTypeHint p e = { e with features := some (.featSet (edgeFeatures hint s)) } := by
  unfold applyEdgeTypeHint
  rw [hg, hf]

theorem applyShapeTypeHint_idem (p : TypeHintProvider) (e : ModelElement) :
    applyShapeTypeHint p (applyShapeTypeHint p e) = applyShapeTypeHint p e := by
  cases hg : getShapeTypeHint p e.type with
  | none => simp only [applyShapeTypeHint_of_none p e hg]
  | some hint =>
    cases hf : e.features with
    | none => simp only [applyShapeTypeHint_of_not_modifiable p e (by rw [hf]; rfl)]
    | some fo =>
      cases fo with
      | nonSetObj => simp only [applyShapeTypeHint_of_not_modifiable p e (by rw [hf]; rfl)]
      | featSet s =>
        rw [applyShapeTypeHint_eq p e hint s hg hf]
        rw [applyShapeTypeHint_eq p _ hint (shapeFeatures hint s) (by simpa using hg) rfl]
        simp [shapeFeatures_idem]

theorem applyEdgeTypeHint_idem (p : TypeHintProvider) (e : ModelElement) :
    applyEdgeTypeHint p (applyEdgeTypeHint p e) = applyEdgeTypeHint p e := by
  cases hg : getEdgeTypeHint p e.type with
  | none => simp only [applyEdgeTypeHint_of_none p e hg]
  | some hint =>
    cases hf : e.features with
    | none => simp only [applyEdgeTypeHint_of_not_modifiable p e (by rw [hf]; rfl)]
    | some fo =>
      cases fo with
      | nonSetObj => simp only [applyEdgeTypeHint_of_not_modifiable p e (by rw [hf]; rfl)]
      | featSet s =>
        rw [applyEdgeTypeHint_eq p e hint s hg hf]
        rw [applyEdgeTypeHint_eq p _ hint (edgeFeatures hint s) (by simpa using hg) rfl]
        simp [edgeFeatures_idem]

theorem applyShapeTypeHint_kind (p : TypeHintProvider) (e : ModelElement) :
    (applyShapeTypeHint p e).kind = e.kind := by
  unfold applyShapeTypeHint
  split <;> rfl

theorem applyEdgeTypeHint_kind (p : TypeHintProvider) (e : ModelElement) :
    (applyEdgeTypeHint p e).kind = e.kind := by
  unfold applyEdgeTypeHint
  split <;> rfl

theorem applyToElement_idem (p : TypeHintProvider) (e : ModelElement) :
    applyToElement p (applyToElement p e) = applyToElement p e := by
  cases hk : e.kind
  case shapeElem =>
    have h1 : applyToElement p e = applyShapeTypeHint p e := by
      unfold applyToElement; rw [hk]
    rw [h1]
    unfold applyToElement
    rw [applyShapeTypeHint_kind, hk]
    exact applyShapeTypeHint_idem p e
  case rootElem =>
    have h1 : applyToElement p e = applyShapeTypeHint p e := by
      unfold applyToElement; rw [hk]
    rw [h1]
    unfold applyToElement
    rw [applyShapeTypeHint_kind, hk]
    exact applyShapeTypeHint_idem p e
  case edgeElem =>
    have h1 : applyToElement p e = applyEdgeTypeHint p e := by
      unfold applyToElement; rw [hk]
    rw [h1]
    unfold applyToElement
    rw [applyEdgeTypeHint_kind, hk]
    exact applyEdgeTypeHint_idem p e
  case otherElem =>
    have h1 : applyToElement p e = e := by
      unfold applyToElement; rw [hk]
    rw [h1, h1]

/-- C2: running the capability application command twice in succession against an
unchanged model tree and an unchanged hint registry yields the model produced by
the first run unchanged — identical feature sets, and identical captured closure
data, hence containment and connection predicates with identical behaviour on
every candidate. -/
theorem executeApplyTypeHints_idem (p : TypeHintProvider) (root : List ModelElement) :
    executeApplyTypeHints p (executeApplyTypeHints p root) = executeApplyTypeHints p root := by
  unfold executeApplyTypeHints
  rw [List.map_map]
  exact List.map_congr_left fun e _ => applyToElement_idem p e

/-- C3: an element whose type id and all of its stripped ancestors, the empty
string included, carry no registered hint in either registry is left completely
unchanged by one pass of the capability application command: no hint means no
mutation, never a revocation of existing capabilities. -/
theorem applyToElement_no_hint_unchanged (p : TypeHintProvider) (e : ModelElement)
    (h : ∀ c ∈ candidates e.type,
      lookupHint p.shapeHints c = none ∧ lookupHint p.edgeHints c = none) :
    applyToElement p e = e := by
  have hs : getShapeTypeHint p e.type = none := by
    rw [getShapeTypeHint, getTypeHint_eq_findSome]
    exact List.findSome?_eq_none_iff.mpr fun c hc => (h c hc).1
  have he : getEdgeTypeHint p e.type = none := by
    rw [getEdgeTypeHint, getTypeHint_eq_findSome]
    exact List.findSome?_eq_none_iff.mpr fun c hc => (h c hc).2
  cases hk : e.kind
  case shapeElem =>
    have h1 : applyToElement p e = applyShapeTypeHint p e := by
      unfold applyToElement; rw [hk]
    rw [h1]
    exact applyShapeTypeHint_of_none p e hs
  case rootElem =>
    have h1 : applyToElement p e = applyShapeTypeHint p e := by
      unfold applyToElement; rw [hk]
    rw [h1]
    exact applyShapeTypeHint_of_none p e hs
  case edgeElem =>
    have h1 : applyToElement p e = applyEdgeTypeHint p e := by
      unfold applyToElement; rw [hk]
    rw [h1]
    exact applyEdgeTypeHint_of_none p e he
  case otherElem =>
    unfold applyToElement; rw [hk]

/-- Witness for C3: a shape element of a type unrelated to every registered hint
keeps its feature set across a pass. -/
theorem applyToElement_no_hint_unchanged_witness :
    (∀ c ∈ candidates "bar:baz",
      lookupHint [("foo", ShapeTypeHint.mk "foo" true true true true none)] c = none ∧
      lookupHint [("foo", EdgeTypeHint.mk "foo" true true true [] [])] c = none) ∧
    applyToElement
      ⟨[("foo", ShapeTypeHint.mk "foo" true true true true none)],
       [("foo", EdgeTypeHint.mk "foo" true true true [] [])]⟩
      ⟨.shapeElem, "bar:baz", some (.featSet {Feature.deletableFeature}), none, none⟩ =
      ⟨.shapeElem, "bar:baz", some (.featSet {Feature.deletableFeature}), none, none⟩ :=
  ⟨by decide,
   applyToElement_no_hint_unchanged
     ⟨[("foo", ShapeTypeHint.mk "foo" true true true true none)],
      [("foo", EdgeTypeHint.mk "foo" true true true [] [])]⟩
     ⟨.shapeElem, "bar:baz", some (.featSet {Feature.deletableFeature}), none, none⟩
     (by decide)⟩

/-- C10: the capability application command mutates an element only when its
features field is present and is an instance of Set: even when a hint resolves for
the element's type, an element whose features field is absent or not a modifiable
set is left entirely unchanged (being a total function, the command also never
faults on such elements). -/
theorem applyToElement_not_modifiable_unchanged (p : TypeHintProvider) (e : ModelElement)
    (hm : isModifiableFeatureSet e.features = false) : applyToElement p e = e := by
  cases hk : e.kind
  case shapeElem =>
    have h1 : applyToElement p e = applyShapeTypeHint p e := by
      unfold applyToElement; rw [hk]
    rw [h1]
    exact applyShapeTypeHint_of_not_modifiable p e hm
  case rootElem =>
    have h1 : applyToElement p e = applyShapeTypeHint p e := by
      unfold applyToElement; rw [hk]
    rw [h1]
    exact applyShapeTypeHint_of_not_modifiable p e hm
  case edgeElem =>
    have h1 : applyToElement p e = applyEdgeTypeHint p e := by
      unfold applyToElement; rw [hk]
    rw [h1]
    exact applyEdgeTypeHint_of_not_modifiable p e hm
  case otherElem =>
    unfold applyToElement; rw [hk]

/-- Witness for C10: a shape element whose type has a registered hint but whose
features field is absent, and an edge whose features field is not a Set, are both
left unchanged. -/
theorem applyToElement_not_modifiable_unchanged_witness :
    isModifiableFeatureSet (none : Option FeatureSetObj) = false ∧
    applyToElement
      ⟨[("node", ShapeTypeHint.mk "node" true true true true none)], []⟩
      ⟨.shapeElem, "node", none, none, none⟩ =
      ⟨.shapeElem, "node", none, none, none⟩ ∧
    applyToElement
      ⟨[], [("edge", EdgeTypeHint.mk "edge" true true true [] [])]⟩
      ⟨.edgeElem, "edge", some .nonSetObj, none, none⟩ =
      ⟨.edgeElem, "edge", some .nonSetObj, none, none⟩ :=
  ⟨by decide,
   applyToElement_not_modifiable_unchanged
     ⟨[("node", ShapeTypeHint.mk "node" true true true true none)], []⟩
     ⟨.shapeElem, "node", none, none, none⟩ (by decide),
   applyToElement_not_modifiable_unchanged
     ⟨[], [("edge", EdgeTypeHint.mk "edge" true true true [] [])]⟩
     ⟨.edgeElem, "edge", some .nonSetObj, none, none⟩ (by decide)⟩

/-- C5: getValidEdgeElementTypes returns exactly the elementTypeIds of the
registered edge hints whose sourceElementTypeIds (for role source), respectively
targetElementTypeIds (for role target), contain an id compatible with the given
type id, and no other ids. -/
theorem getValidEdgeElementTypes_spec (p : TypeHintProvider) (t x : String) (role : Role) :
    x ∈ getValidEdgeElementTypes p t role ↔
      ∃ hint ∈ p.edgeHints.map Prod.snd,
        hint.elementTypeId = x ∧
        ∃ s2 ∈ (match role with
                 | Role.source => hint.sourceElementTypeIds
                 | Role.target => hint.targetElementTypeIds),
          hasCompatibleType t s2 = true := by
  cases role <;>
    simp only [getValidEdgeElementTypes, List.mem_map, List.mem_filter,
      List.any_eq_true] <;>
    constructor
  · rintro ⟨hint, ⟨hmem, hsome⟩, hx⟩
    exact ⟨hint, hmem, hx, hsome⟩
  · rintro ⟨hint, hmem, hx, hsome⟩
    exact ⟨hint, ⟨hmem, hsome⟩, hx⟩
  · rintro ⟨hint, ⟨hmem, hsome⟩, hx⟩
    exact ⟨hint, hmem, hx, hsome⟩
  · rintro ⟨hint, hmem, hx, hsome⟩
    exact ⟨hint, ⟨hmem, hsome⟩, hx⟩

/-- The feature set held by an element's features field, empty when the field is
absent or not a Set. -/
def featuresOf (e : ModelElement) : Finset Feature :=
  match e.features with
  | some (.featSet s) => s
  | _ => ∅

/-- C6: with only the shape hint for id node (deletable and repositionable, not
resizable and not reparentable) registered and a shape element of type node:task
whose modifiable feature set initially holds the resize and reparent tokens, one
application leaves the element with the deletable and move tokens, without the
resize and reparent tokens, and with the connectable and container tokens. -/
theorem applyShapeTypeHint_scenario_node_task :
    Feature.deletableFeature ∈ featuresOf
      (applyShapeTypeHint
        ⟨[("node", ShapeTypeHint.mk "node" true true false false none)], []⟩
        ⟨.shapeElem, "node:task",
          some (.featSet {Feature.resizeFeature, Feature.reparentFeature}), none, none⟩) ∧
    Feature.moveFeature ∈ featuresOf
      (applyShapeTypeHint
        ⟨[("node", ShapeTypeHint.mk "node" true true false false none)], []⟩
        ⟨.shapeElem, "node:task",
          some (.featSet {Feature.resizeFeature, Feature.reparentFeature}), none, none⟩) ∧
    Feature.resizeFeature ∉ featuresOf
      (applyShapeTypeHint
        ⟨[("node", ShapeTypeHint.mk "node" true true false false none)], []⟩
        ⟨.shapeElem, "node:task",
          some (.featSet {Feature.resizeFeature, Feature.reparentFeature}), none, none⟩) ∧
    Feature.reparentFeature ∉ featuresOf
      (applyShapeTypeHint
        ⟨[("node", ShapeTypeHint.mk "node" true true false false none)], []⟩
        ⟨.shapeElem, "node:task",
          some (.featSet {Feature.resizeFeature, Feature.reparentFeature}), none, none⟩) ∧
    Feature.connectableFeature ∈ featuresOf
      (applyShapeTypeHint
        ⟨[("node", ShapeTypeHint.mk "node" true true false false none)], []⟩
        ⟨.shapeElem, "node:task",
          some (.featSet {Feature.resizeFeature, Feature.reparentFeature}), none, none⟩) ∧
    Feature.containerFeature ∈ featuresOf
      (applyShapeTypeHint
        ⟨[("node", ShapeTypeHint.mk "node" true true false false none)], []⟩
        ⟨.shapeElem, "node:task",
          some (.featSet {Feature.resizeFeature, Feature.reparentFeature}), none, none⟩) := by
  decide

/-! ### The correlated-request primitive -/

/-- Modelled from the spec: requestUntil of the action dispatcher
(base/action-dispatcher.ts is not among the provided sources). Per the spec,
requestUntil dispatches the request action and returns a single future value: the
first subsequently dispatched action for which the match predicate holds. The
first component is the dispatched request action; the second is the future's
outcome over a given sequence of subsequently dispatched actions — the first
matching action of the sequence, or none when no dispatched action matches (the
future never resolves). -/
def requestUntil {α : Type} (requestAction : α) (matchPredicate : α → Bool)
    (dispatchedAfter : List α) : α × Option α :=
  (requestAction, dispatchedAfter.find? matchPredicate)

/-- C4: the future returned by requestUntil resolves with the first dispatched
action satisfying the predicate — an action for which the predicate holds and
which is preceded only by actions failing it — never resolves when no matching
action is ever dispatched, and its resolution is stable: dispatching further
actions after a resolution never changes it, so the call resolves at most once. -/
theorem requestUntil_resolution {α : Type} (requestAction : α) (matchPredicate : α → Bool)
    (dispatchedAfter : List α) :
    (∀ a, (requestUntil requestAction matchPredicate dispatchedAfter).2 = some a →
        matchPredicate a = true ∧
        ∃ pre post, dispatchedAfter = pre ++ a :: post ∧
          ∀ b ∈ pre, matchPredicate b = false) ∧
    ((requestUntil requestAction matchPredicate dispatchedAfter).2 = none ↔
        ∀ a ∈ dispatchedAfter, matchPredicate a = false) ∧
    (∀ a ext, (requestUntil requestAction matchPredicate dispatchedAfter).2 = some a →
        (requestUntil requestAction matchPredicate (dispatchedAfter ++ ext)).2 = some a) := by
  refine ⟨?_, ?_, ?_⟩
  · intro a ha
    obtain ⟨hpa, pre, post, heq, hpre⟩ := List.find?_eq_some.mp ha
    refine ⟨hpa, pre, post, heq, fun b hb => ?_⟩
    have := hpre b hb
    simpa using this
  · rw [show (requestUntil requestAction matchPredicate dispatchedAfter).2 =
        dispatchedAfter.find? matchPredicate from rfl, List.find?_eq_none]
    constructor
    · intro h a ha
      simpa using h a ha
    · intro h a ha
      simp [h a ha]
  · intro a ext ha
    have : (dispatchedAfter ++ ext).find? matchPredicate =
        (dispatchedAfter.find? matchPredicate).or (ext.find? matchPredicate) :=
      List.find?_append
    rw [show (requestUntil requestAction matchPredicate (dispatchedAfter ++ ext)).2 =
        (dispatchedAfter ++ ext).find? matchPredicate from rfl, this]
    rw [show (requestUntil requestAction matchPredicate dispatchedAfter).2 =
        dispatchedAfter.find? matchPredicate from rfl] at ha
    rw [ha]
    rfl

/-- Witness for C4: with two non-matching actions dispatched before the first
matching one, the future resolves with the matching action. -/
theorem requestUntil_resolution_witness :
    (requestUntil 0 (fun n => n % 2 == 0) [1, 3, 4, 6]).2 = some 4 ∧
    (fun n => n % 2 == 0) 4 = true ∧
    ∃ pre post, [1, 3, 4, 6] = pre ++ 4 :: post ∧
      ∀ b ∈ pre, (fun n => n % 2 == 0) b = false :=
  ⟨by decide, (requestUntil_resolution 0 (fun n => n % 2 == 0) [1, 3, 4, 6]).1 4 (by decide)⟩

/-! ### Response translation of the correlated-request helpers -/

/-- Modelled from the spec: the severity levels of the protocol's ValidationStatus;
only the classification into error, warning and everything else matters to the
translation. -/
inductive StatusSeverity where
  | fatal
  | errorSev
  | warningSev
  | infoSev
  | okSev
  | noneSev
deriving DecidableEq

/-- Modelled from the spec: the protocol's ValidationStatus, a severity plus an
optional user-facing message. -/
structure ValidationStatus where
  severity : StatusSeverity
  message : Option String
deriving DecidableEq

/-- Modelled from the spec: ValidationStatus.isError of the protocol. -/
def ValidationStatus.isError (s : ValidationStatus) : Bool :=
  match s.severity with
  | .fatal => true
  | .errorSev => true
  | _ => false

/-- Modelled from the spec: ValidationStatus.isWarning of the protocol. -/
def ValidationStatus.isWarning (s : ValidationStatus) : Bool :=
  match s.severity with
  | .warningSev => true
  | _ => false

/-- The UI-facing severity of an EditLabelValidationResult. -/
inductive Severity where
  | ok
  | warning
  | error
deriving DecidableEq

/-- The UI-facing result of a label-edit validation: an optional message and a
severity, defaulting to ok. -/
structure EditLabelValidationResult where
  message : Option String
  severity : Severity
deriving DecidableEq

/-- A labeled action as delivered by a setContextActions response; the embedded
action list of the protocol type is payload passed through untouched and is
elided here. -/
structure LabeledAction where
  label : String
  icon : Option String
deriving DecidableEq

/-- A response action as received by the correlated-request helpers: its kind
discriminator together with the payload fields the two consumers look at, each
possibly absent so that malformed responses are representable. -/
structure ResponseAction where
  kind : String
  status : Option ValidationStatus
  actions : Option (List LabeledAction)
deriving DecidableEq

/-- Modelled from the spec: the type guard of SetEditValidationResultAction checks
the kind discriminator and the presence of the required status field. -/
def isSetEditValidationResultAction (a : ResponseAction) : Bool :=
  a.kind == "setEditValidationResult" && a.status.isSome

/-- Modelled from the spec: the type guard of SetContextActions checks the kind
discriminator and the presence of the required actions field. -/
def isSetContextActions (a : ResponseAction) : Bool :=
  a.kind == "setContextActions" && a.actions.isSome

/-- LabelEditValidation.toEditLabelValidationResult from edit-label-validator.ts:
severity error when the status is an error, warning when a warning, ok otherwise;
the message is passed through. -/
def toEditLabelValidationResult (status : ValidationStatus) : EditLabelValidationResult :=
  { message := status.message
    severity :=
      if status.isError then .error
      else if status.isWarning then .warning
      else .ok }

/-- ServerEditLabelValidator.getValidationResultFromResponse: a well-formed
SetEditValidationResultAction is translated through toEditLabelValidationResult;
anything else yields the neutral ok result. -/
def getValidationResultFromResponse (a : ResponseAction) : EditLabelValidationResult :=
  if isSetEditValidationResultAction a then
    match a.status with
    | some st => toEditLabelValidationResult st
    | none => { message := none, severity := .ok }
  else { message := none, severity := .ok }

/-- ServerContextMenuItemProvider.getContextActionsFromResponse: a well-formed
SetContextActions yields its actions array; anything else yields the empty list. -/
def getContextActionsFromResponse (a : ResponseAction) : List LabeledAction :=
  if isSetContextActions a then a.actions.getD [] else []

/-- C7: a response that is not a well-formed SetEditValidationResultAction
translates to the neutral ok result, and a response that is not a well-formed
SetContextActions translates to the empty action list; both translations are total
functions and never fault on a missing or malformed response. -/
theorem response_translation_defaults (a : ResponseAction) :
    (isSetEditValidationResultAction a = false →
      getValidationResultFromResponse a = { message := none, severity := .ok }) ∧
    (isSetContextActions a = false → getContextActionsFromResponse a = []) := by
  constructor <;> intro h <;>
    simp [getValidationResultFromResponse, getContextActionsFromResponse, h]

/-- Witness for C7 at a concrete garbled response of unrelated kind with no
payload fields. -/
theorem response_translation_defaults_witness :
    isSetEditValidationResultAction ⟨"serverStatus", none, none⟩ = false ∧
    getValidationResultFromResponse ⟨"serverStatus", none, none⟩ =
      { message := none, severity := .ok } ∧
    isSetContextActions ⟨"serverStatus", none, none⟩ = false ∧
    getContextActionsFromResponse ⟨"serverStatus", none, none⟩ = [] :=
  ⟨by decide, (response_translation_defaults ⟨"serverStatus", none, none⟩).1 (by decide),
   by decide, (response_translation_defaults ⟨"serverStatus", none, none⟩).2 (by decide)⟩

/-! ### The command stack extension -/

/-- The observable state of GLSPCommandStack: the current model root and the log
of warnings emitted so far (the logger is observed through the warnings it
receives). The model root type is abstract. -/
structure GLSPCommandStackState (α : Type) where
  currentModel : α
  warnings : List String
deriving DecidableEq

/-- The warning text logged by GLSPCommandStack.undo. -/
def undoWarning : String :=
  "GLSPCommandStack.undo() was called. This should never happen as the GLSP server is responsible for handling undo requests"

/-- The warning text logged by GLSPCommandStack.redo. -/
def redoWarning : String :=
  "GLSPCommandStack.redo() was called. This should never happen as the GLSP server is responsible for handling redo requests"

/-- GLSPCommandStack.undo: log a warning and return the current model; the model
is not touched. -/
def undo {α : Type} (s : GLSPCommandStackState α) : α × GLSPCommandStackState α :=
  (s.currentModel, { s with warnings := s.warnings ++ [undoWarning] })

/-- GLSPCommandStack.redo: log a warning and return the current model; the model
is not touched. -/
def redo {α : Type} (s : GLSPCommandStackState α) : α × GLSPCommandStackState α :=
  (s.currentModel, { s with warnings := s.warnings ++ [redoWarning] })

/-- C8: every invocation of undo or redo logs one warning, returns the model that
was current immediately prior to the invocation, and performs no model mutation;
both are total functions and raise no exception. -/
theorem undo_redo_noop {α : Type} (s : GLSPCommandStackState α) :
    (undo s).1 = s.currentModel ∧
    (undo s).2.currentModel = s.currentModel ∧
    (undo s).2.warnings = s.warnings ++ [undoWarning] ∧
    (redo s).1 = s.currentModel ∧
    (redo s).2.currentModel = s.currentModel ∧
    (redo s).2.warnings = s.warnings ++ [redoWarning] :=
  ⟨rfl, rfl, rfl, rfl, rfl, rfl⟩

/-- The runtime class of a command executed through GLSPCommandStack, as
discriminated by the instanceof checks in execute: a full model set, a full model
update, or any other command (identified by its action kind). -/
inductive CommandKind where
  | setModelCmd
  | updateModelCmd
  | otherCmd (kind : String)
deriving DecidableEq

/-- A command as seen by GLSPCommandStack.execute: its runtime class and the
effect of the inherited execution on the current model root. -/
structure ICommandM (α : Type) where
  ckind : CommandKind
  run : α → α

/-- GLSPCommandStack.execute: delegate to the inherited execution, and when the
executed command is a SetModelCommand or an UpdateModelCommand, fire the model
root changed event with the produced root. The result is the new root, the new
stack state, and the list of events fired to the registered listeners. -/
def executeCommand {α : Type} (s : GLSPCommandStackState α) (cmd : ICommandM α) :
    α × GLSPCommandStackState α × List α :=
  let newRoot := cmd.run s.currentModel
  (newRoot, { s with currentModel := newRoot },
    match cmd.ckind with
    | .setModelCmd => [newRoot]
    | .updateModelCmd => [newRoot]
    | .otherCmd _ => [])

/-- C9: execute fires the model root changed event, carrying the root produced by
the execution, exactly when the executed command is a full model set or update;
for every other command no event is fired. -/
theorem executeCommand_emits_iff {α : Type} (s : GLSPCommandStackState α) (cmd : ICommandM α) :
    ((executeCommand s cmd).2.2 = [cmd.run s.currentModel] ↔
      cmd.ckind = .setModelCmd ∨ cmd.ckind = .updateModelCmd) ∧
    (¬(cmd.ckind = .setModelCmd ∨ cmd.ckind = .updateModelCmd) →
      (executeCommand s cmd).2.2 = []) := by
  cases hk : cmd.ckind <;> simp [executeCommand, hk]

/-- Witness for C9: an incremental edit command fires no model root changed
event. -/
theorem executeCommand_emits_iff_witness :
    ¬(CommandKind.otherCmd "move" = CommandKind.setModelCmd ∨
        (CommandKind.otherCmd "move") = CommandKind.updateModelCmd) ∧
    (executeCommand (⟨0, []⟩ : GLSPCommandStackState Nat)
        ⟨.otherCmd "move", fun n => n + 1⟩).2.2 = [] :=
  ⟨by decide,
   (executeCommand_emits_iff (⟨0, []⟩ : GLSPCommandStackState Nat)
     ⟨.otherCmd "move", fun n => n + 1⟩).2 (by decide)⟩

end Glsp
